import Mathlib

/-!
# translazy: the locale store, the translator client and the orchestrator

A shallow embedding of `main.go`.

Modelling conventions.

* Go strings are Lean `String`s (sequences of Unicode scalar values), so byte
  sequences that are not valid UTF-8 are outside the model.
* The bytes of a file, handed whole to `json.Unmarshal`, are represented by
  what the library's scanner makes of them: either they are not a JSON text
  (`Content.notJSON`: a syntax error, which includes the empty input and a
  value followed by other bytes), or they are the JSON value they spell
  (`Content.json v`).  White space, escapes and indentation are therefore
  invisible; the order and the repetition of object members are kept.
* The bytes of a response body, read by a `json.Decoder`, are a `Stream`: the
  decoder takes the first JSON value of the stream and never looks at what
  follows it.
* A Go `map[string]string` is `Option StrMap`: `none` is the nil map, and a
  non-nil map is the list of its entries in increasing key order, which is the
  order in which `json.MarshalIndent` emits them.
* The disk says which file a path names (two path strings may name one file),
  what each file holds (`none`: `os.ReadFile` fails, the file is missing or
  cannot be read) and what `os.WriteFile` does at it: it may succeed, be
  refused with the file left as it is, or fail half way with the file left
  truncated.
* The remote service is a function from the request to the result of
  `client.Do`.
* A run that dies in `log.Fatal` or in a runtime panic is an explicit outcome.
-/

namespace Translazy

/-! ## JSON values and byte contents -/

/-- A JSON value as the scanner of `encoding/json` delivers it. -/
inductive JSON where
  | null
  | bool (b : Bool)
  | number (lit : String)
  | string (s : String)
  | array (items : List JSON)
  | object (members : List (String × JSON))

/-- The bytes given whole to `json.Unmarshal` (a file), or produced by
`json.Marshal`, up to JSON syntax. -/
inductive Content where
  | notJSON
  | json (v : JSON)

/-- The bytes of a response body as a `json.Decoder` reads them: the stream
does not begin with a complete JSON value (`noValue`: a syntax error or the end
of the input), or it begins with the value `v`; `more` says whether bytes other
than white space follow that value, which the decoder does not read. -/
inductive Stream where
  | noValue
  | value (v : JSON) (more : Bool)

/-! ## Go maps from string to string -/

/-- The entries of a non-nil `map[string]string`, in increasing key order. -/
abbrev StrMap := List (String × String)

/-- The store `m[k] = v` on a non-nil map.  Keys are ordered as Go orders
strings, lexicographically by byte, which on UTF-8 is the lexicographic order
of the code points. -/
def StrMap.set : StrMap → String → String → StrMap
  | [], k, v => [(k, v)]
  | (k', v') :: m, k, v =>
    if k.toList < k'.toList then (k, v) :: (k', v') :: m
    else if k = k' then (k, v) :: m
    else (k', v') :: StrMap.set m k v

/-- The load `m[k]` with its presence bit. -/
def StrMap.get? : StrMap → String → Option String
  | [], _ => none
  | (k', v) :: m, k => if k = k' then some v else StrMap.get? m k

/-- The statement `m[k] = v` of Go on a possibly nil map: a store into the nil
map is the runtime panic "assignment to entry in nil map", here `none`. -/
def mapassign (m : Option StrMap) (k v : String) : Option (Option StrMap) :=
  match m with
  | none => none
  | some entries => some (some (entries.set k v))

/-! ## `json.Unmarshal` into a `map[string]string` -/

/-- Decoding one member value into a fresh `string` map element: a JSON string
is stored, `null` leaves the zero value, and any other value records an
`UnmarshalTypeError` and leaves the zero value.  The boolean is the error. -/
def decodeStringElem : JSON → String × Bool
  | .string s => (s, false)
  | .null => ("", false)
  | _ => ("", true)

/-- Decoding the members of a JSON object into the map, in document order; a
repeated name overwrites, and the first error is kept while decoding goes on. -/
def decodeMembers : List (String × JSON) → StrMap → Bool → StrMap × Bool
  | [], m, err => (m, err)
  | (k, v) :: rest, m, err =>
    decodeMembers rest (m.set k (decodeStringElem v).1) (err || (decodeStringElem v).2)

/-- The call `json.Unmarshal(data, &m)` for `m : map[string]string`: the map
after the call and whether an error was returned.  Input that is not JSON is
rejected before the target is touched; an object allocates the map when it is
nil and fills it; `null` sets the map to nil without error; any other value is
a type error that leaves the map as it was. -/
def Unmarshal (data : Content) (m : Option StrMap) : Option StrMap × Bool :=
  match data with
  | .notJSON => (m, true)
  | .json (.object members) =>
    let r := decodeMembers members (m.getD []) false
    (some r.1, r.2)
  | .json .null => (none, false)
  | .json _ => (m, true)

/-- The call `json.MarshalIndent(m, "", "  ")`: a nil map is rendered `null`, a
non-nil map as the object of its entries in increasing key order. -/
def MarshalIndent : Option StrMap → Content
  | none => .json .null
  | some entries => .json (.object (entries.map fun kv => (kv.1, JSON.string kv.2)))

/-! ## The disk -/

/-- What `os.WriteFile` does at a file: it writes the data; or it is refused
(the file cannot be opened for writing) and the file stays as it is; or it
fails after the file was truncated, which leaves a proper prefix of the data,
never a JSON text. -/
inductive WriteMode where
  | succeeds
  | refused
  | torn
  deriving DecidableEq

/-- The disk: the file each path names, what each file holds, and what a write
to each file does. -/
structure Disk where
  resolve : String → String
  files : String → Option Content
  mode : String → WriteMode

/-- What the file named by a path holds. -/
def Disk.file (disk : Disk) (path : String) : Option Content :=
  disk.files (disk.resolve path)

/-- Whether `os.WriteFile` to the file named by a path succeeds. -/
def Disk.writable (disk : Disk) (path : String) : Bool :=
  decide (disk.mode (disk.resolve path) = WriteMode.succeeds)

/-- The call `os.ReadFile`: the bytes and whether an error was returned.  A
failed read gives no bytes, which is not a JSON text. -/
def ReadFile (disk : Disk) (path : String) : Content × Bool :=
  match disk.file path with
  | some c => (c, false)
  | none => (.notJSON, true)

/-- The call `os.WriteFile`: the disk after the call and whether an error was
returned. -/
def WriteFile (disk : Disk) (path : String) (data : Content) : Disk × Bool :=
  match disk.mode (disk.resolve path) with
  | .succeeds =>
    ({ disk with files := fun f => if f = disk.resolve path then some data else disk.files f },
      false)
  | .refused => (disk, true)
  | .torn =>
    ({ disk with
        files := fun f => if f = disk.resolve path then some .notJSON else disk.files f },
      true)

/-! ## The locale store -/

/-- A text in a language. -/
structure Translation where
  Lang : String
  Text : String
  deriving DecidableEq

/-- The file name used for a language code. -/
def norwegianConfusionHack (lang : String) : String :=
  if lang = "nb" then "no" else lang

/-- The path `outputPath` that `persistToLocaleFiles` computes for a language. -/
def outputPath (lang : String) : String :=
  "locale/" ++ norwegianConfusionHack lang ++ ".json"

/-- How a call of `persistToLocaleFiles` ends, with the disk it leaves. -/
inductive Outcome where
  | done (disk : Disk)
  | panicked (disk : Disk)

/-- The disk an outcome leaves. -/
def Outcome.disk : Outcome → Disk
  | .done disk => disk
  | .panicked disk => disk

/-- Whether the call returned. -/
def Outcome.completed : Outcome → Bool
  | .done _ => true
  | .panicked _ => false

/-- The function `persistToLocaleFiles`: for each translation in turn, read the
file, decode it into a nil map, store the key, encode and write back.  Every
error value is discarded, that of the write included; the store into a map that
is still nil panics. -/
def persistToLocaleFiles : List Translation → String → Disk → Outcome
  | [], _, disk => .done disk
  | translation :: rest, key, disk =>
    let fileContent := (ReadFile disk (outputPath translation.Lang)).1
    let existingTranslations := (Unmarshal fileContent none).1
    match mapassign existingTranslations key translation.Text with
    | none => .panicked disk
    | some updated =>
      persistToLocaleFiles rest key
        (WriteFile disk (outputPath translation.Lang) (MarshalIndent updated)).1

/-! ## The translator client -/

/-- The request payload. -/
structure DeepLAPIInput where
  Text : List String
  TargetLang : String
  SourceLang : String

/-- One entry of the response. -/
structure DeepLAPITranslation where
  DetectedSourceLanguage : String
  Text : String
  deriving DecidableEq

/-- The response payload.  A nil slice and an empty slice are both `[]`. -/
structure DeepLAPIOutput where
  Translations : List DeepLAPITranslation
  deriving DecidableEq

/-- The call `json.Marshal` on the request payload: the fields in declaration
order under their tags. -/
def Marshal (input : DeepLAPIInput) : Content :=
  .json (.object [
    ("text", .array (input.Text.map JSON.string)),
    ("target_lang", .string input.TargetLang),
    ("source_lang", .string input.SourceLang)])

/-- The white space of `unicode.IsSpace`. -/
def isSpace (c : Char) : Bool :=
  let n := c.toNat
  n = 9 || n = 10 || n = 11 || n = 12 || n = 13 || n = 32 || n = 0x85 || n = 0xA0 ||
  n = 0x1680 || (0x2000 ≤ n && n ≤ 0x200A) || n = 0x2028 || n = 0x2029 ||
  n = 0x202F || n = 0x205F || n = 0x3000

/-- The call `strings.TrimSpace`. -/
def TrimSpace (s : String) : String :=
  String.mk ((s.toList.dropWhile isSpace).reverse.dropWhile isSpace).reverse

/-- What is sent: `http.NewRequest` and the two headers. -/
structure Request where
  method : String
  url : String
  authorization : String
  contentType : String
  body : Content

/-- The remote end as `client.Do` shows it: a transport error, or the body of
a response (of any status). -/
abbrev HttpClient := Request → Except String Stream

/-- The simple case folding under which `encoding/json` compares an object
member name with a field name, on the letters that fold to ASCII: the capitals,
the Kelvin sign and the long s. -/
def foldRune (c : Char) : Char :=
  if c.toNat = 0x212A then Char.ofNat 107
  else if c.toNat = 0x17F then Char.ofNat 115
  else c.toLower

/-- Whether a member name selects the field with the given (ASCII) name. -/
def equalFold (name field : String) : Bool :=
  name.toList.map foldRune = field.toList.map foldRune

/-- Decoding a value into a `string` struct field that holds `cur`: a JSON
string is stored, `null` leaves the field, any other value records a type error
and leaves the field. -/
def decodeStringField (v : JSON) (cur : String) : String × Bool :=
  match v with
  | .string s => (s, false)
  | .null => (cur, false)
  | _ => (cur, true)

/-- Decoding the members of an object into a `DeepLAPITranslation` that holds
`cur`; a member that selects no field is skipped. -/
def decodeTranslationMembers :
    List (String × JSON) → DeepLAPITranslation → Bool → DeepLAPITranslation × Bool
  | [], cur, err => (cur, err)
  | (k, v) :: rest, cur, err =>
    if equalFold k "detected_source_language" then
      let r := decodeStringField v cur.DetectedSourceLanguage
      decodeTranslationMembers rest { cur with DetectedSourceLanguage := r.1 } (err || r.2)
    else if equalFold k "text" then
      let r := decodeStringField v cur.Text
      decodeTranslationMembers rest { cur with Text := r.1 } (err || r.2)
    else decodeTranslationMembers rest cur err

/-- Decoding a value into a `DeepLAPITranslation` that holds `cur`. -/
def decodeTranslation (v : JSON) (cur : DeepLAPITranslation) : DeepLAPITranslation × Bool :=
  match v with
  | .object members => decodeTranslationMembers members cur false
  | .null => (cur, false)
  | _ => (cur, true)

/-- Decoding the items of a JSON array into the elements of a slice whose
backing array holds `backing` from the current index on: item `i` is decoded
into element `i` as it stands, the zero value where the backing array ends. -/
def decodeItems : List JSON → List DeepLAPITranslation → List DeepLAPITranslation × Bool
  | [], _ => ([], false)
  | v :: rest, backing =>
    let r := decodeTranslation v (backing.headD ⟨"", ""⟩)
    let rs := decodeItems rest backing.tail
    (r.1 :: rs.1, r.2 || rs.2)

/-- The field `Translations` while the response is decoded: the backing array
as far as it was ever written, and the length of the slice. -/
structure SliceState where
  backing : List DeepLAPITranslation
  len : Nat

/-- Decoding a value into the slice: an array decodes item by item and sets
the length to the number of items (an empty array gives a fresh empty slice),
`null` gives the nil slice, any other value is a type error. -/
def decodeSlice (v : JSON) (s : SliceState) : SliceState × Bool :=
  match v with
  | .array [] => (⟨[], 0⟩, false)
  | .array items =>
    let r := decodeItems items s.backing
    (⟨r.1 ++ s.backing.drop items.length, items.length⟩, r.2)
  | .null => (⟨[], 0⟩, false)
  | _ => (s, true)

/-- Decoding the members of the top-level object into a `DeepLAPIOutput`. -/
def decodeOutputMembers : List (String × JSON) → SliceState → Bool → SliceState × Bool
  | [], s, err => (s, err)
  | (k, v) :: rest, s, err =>
    if equalFold k "translations" then
      let r := decodeSlice v s
      decodeOutputMembers rest r.1 (err || r.2)
    else decodeOutputMembers rest s err

/-- The call `json.NewDecoder(body).Decode(&translation)` on the zero
`DeepLAPIOutput`: the value after the call and whether an error was returned.
The decoder reads the first JSON value of the body and nothing after it; a
body that does not begin with a JSON value is an error that leaves the zero
value. -/
def Decode (body : Stream) : DeepLAPIOutput × Bool :=
  match body with
  | .noValue => (⟨[]⟩, true)
  | .value (.object members) _ =>
    let r := decodeOutputMembers members ⟨[], 0⟩ false
    (⟨r.1.backing.take r.1.len⟩, r.2)
  | .value .null _ => (⟨[]⟩, false)
  | .value _ _ => (⟨[]⟩, true)

/-- The request `translate` builds. -/
def mkRequest (token text fromLang toLang : String) : Request where
  method := "POST"
  url := "https://api-free.deepl.com/v2/translate"
  authorization := "DeepL-Auth-Key " ++ TrimSpace token
  contentType := "application/json"
  body := Marshal { Text := [text], TargetLang := toLang, SourceLang := fromLang }

/-- The function `translate`.  The error of the decoder is discarded; only the
length of the decoded list is looked at. -/
def translate (client : HttpClient) (token text fromLang toLang : String) :
    Except String Translation :=
  match client (mkRequest token text fromLang toLang) with
  | .error err => .error err
  | .ok body =>
    match (Decode body).1.Translations with
    | [] => .error "no translations found"
    | first :: _ => .ok { Text := first.Text, Lang := toLang }

/-! ## The orchestrator -/

/-- How a run ends. -/
inductive Exit where
  | ok
  | fatal (msg : String)
  | panic
  deriving DecidableEq

/-- What a run of the action did: how it ended, the disk it left, the arguments
of each call of `persistToLocaleFiles`, and the lines printed. -/
structure Run where
  exit : Exit
  disk : Disk
  persistCalls : List (List Translation × String)
  stdout : List String

/-- The loop over the target languages: translate each in turn and append, and
stop at the first error, which the action hands to `log.Fatal`. -/
def translateAll (client : HttpClient) (token input sourceLanguage : String) :
    List String → List Translation → Except String (List Translation)
  | [], translations => .ok translations
  | lang :: rest, translations =>
    match translate client token input sourceLanguage lang with
    | .error err => .error err
    | .ok translation =>
      translateAll client token input sourceLanguage rest (translations ++ [translation])

/-- The function `outputResults`, line by line. -/
def outputResults (translationKey : String) (translations : List Translation) : List String :=
  ("Translations done for key " ++ String.singleton (Char.ofNat 34) ++ translationKey ++
      String.singleton (Char.ofNat 34)) ::
    translations.map fun translation => "  " ++ translation.Lang ++ ": " ++ translation.Text

/-- The action of the command.  The external command of `syncPnpmLocales` is a
parameter: what it does to the disk and the error of `Run`, if any. -/
def Action (client : HttpClient) (pnpm : Disk → Disk × Option String) (token input : String)
    (sourceLanguage : String) (targetLanguages : List String) (translationKey : String)
    (syncTranslations : Bool) (disk : Disk) : Run :=
  match translateAll client token input sourceLanguage targetLanguages
      [{ Lang := sourceLanguage, Text := input }] with
  | .error err => { exit := .fatal err, disk := disk, persistCalls := [], stdout := [] }
  | .ok translations =>
    match persistToLocaleFiles translations translationKey disk with
    | .panicked disk1 =>
      { exit := .panic, disk := disk1, persistCalls := [(translations, translationKey)],
        stdout := [] }
    | .done disk1 =>
      if syncTranslations then
        match pnpm disk1 with
        | (disk2, some err) =>
          { exit := .fatal err, disk := disk2,
            persistCalls := [(translations, translationKey)], stdout := [] }
        | (disk2, none) =>
          { exit := .ok, disk := disk2, persistCalls := [(translations, translationKey)],
            stdout := outputResults translationKey translations }
      else
        { exit := .ok, disk := disk1, persistCalls := [(translations, translationKey)],
          stdout := outputResults translationKey translations }

/-- The `Value` of the flag `source-lang`, used when the flag is not given. -/
def defaultSourceLanguage : String := "en"

/-- The `Value` of the flag `target-langs`, used when the flag is not given. -/
def defaultTargetLanguages : List String := ["sv", "nb"]

/-- The command with the two language flags as given on the command line,
`none` for a flag that is absent.  Neither flag sets `Required`, whatever its
`Usage` text says: an absent flag takes its `Value`. -/
def command (client : HttpClient) (pnpm : Disk → Disk × Option String) (token input : String)
    (sourceLang : Option String) (targetLangs : Option (List String)) (translationKey : String)
    (syncTranslations : Bool) (disk : Disk) : Run :=
  Action client pnpm token input (sourceLang.getD defaultSourceLanguage)
    (targetLangs.getD defaultTargetLanguages) translationKey syncTranslations disk

/-! ## Reading a locale file as a mapping -/

/-- The value of the last member of a JSON object with the given name. -/
def lastMember : List (String × JSON) → String → Option JSON
  | [], _ => none
  | (k', v) :: rest, k =>
    match lastMember rest k with
    | some w => some w
    | none => if k = k' then some v else none

/-- The text a JSON object gives a name: the value of the last member with that
name, when it is a string. -/
def memberText (members : List (String × JSON)) (k : String) : Option String :=
  match lastMember members k with
  | some (.string s) => some s
  | _ => none

/-- The text the decoder of the locale store takes for a name of a JSON object:
that of the last member with the name, the empty string when the value is not
a string. -/
def memberRead (members : List (String × JSON)) (k : String) : Option String :=
  match lastMember members k with
  | some (.string s) => some s
  | some _ => some ""
  | none => none

/-- The text the locale store reads for a key in a file that holds a JSON
object. -/
def fileReads (file : Option Content) (k : String) : Option String :=
  match file with
  | some (.json (.object members)) => memberRead members k
  | _ => none

/-- The text a file maps a key to, if any. -/
def fileMaps (file : Option Content) (k : String) : Option String :=
  match file with
  | some (.json (.object members)) => memberText members k
  | _ => none

/-- Whether every member value is a string. -/
def allStrings : List (String × JSON) → Bool
  | [] => true
  | (_, .string _) :: rest => allStrings rest
  | _ :: _ => false

/-- Whether a file exists and holds a JSON object. -/
def holdsObject : Option Content → Bool
  | some (.json (.object _)) => true
  | _ => false

/-- Whether a file exists and holds a flat string-to-string JSON object. -/
def holdsFlatObject : Option Content → Bool
  | some (.json (.object members)) => allStrings members
  | _ => false

/-- Whether a response body begins with a JSON object. -/
def beginsWithObject : Stream → Bool
  | .value (.object _) _ => true
  | _ => false

/-! ## Sample inputs -/

/-- Three locale files: flat objects for `en` and `sv`, the empty object for
`no`. -/
def sampleFiles : String → Option Content := fun f =>
  if f = "locale/en.json" then
    some (.json (.object [("farewell", .string "Goodbye"), ("title", .string "Home")]))
  else if f = "locale/sv.json" then
    some (.json (.object [("farewell", .string "Adjö")]))
  else if f = "locale/no.json" then some (.json (.object []))
  else none

/-- A disk with the three sample files, all of which can be written. -/
def sampleDisk : Disk where
  resolve := fun path => path
  files := sampleFiles
  mode := fun _ => .succeeds

/-- A disk with the three sample files, none of which can be opened for
writing. -/
def lockedDisk : Disk where
  resolve := fun path => path
  files := sampleFiles
  mode := fun _ => .refused

/-- A disk without any file. -/
def emptyDisk : Disk where
  resolve := fun path => path
  files := fun _ => none
  mode := fun _ => .succeeds

/-- A disk whose only file is an English locale file with the empty object. -/
def englishOnlyDisk : Disk where
  resolve := fun path => path
  files := fun f => if f = "locale/en.json" then some (.json (.object [])) else none
  mode := fun _ => .succeeds

/-- A disk whose Swedish locale file is an object with a number in it. -/
def numberDisk : Disk where
  resolve := fun path => path
  files := fun f =>
    if f = "locale/sv.json" then
      some (.json (.object [("count", .number "1"), ("title", .string "Hem")]))
    else none
  mode := fun _ => .succeeds

/-- A disk whose Swedish locale file is not JSON and whose English one is. -/
def brokenDisk : Disk where
  resolve := fun path => path
  files := fun f =>
    if f = "locale/sv.json" then some .notJSON
    else if f = "locale/en.json" then some (.json (.object []))
    else none
  mode := fun _ => .succeeds

/-- A response with one entry and nothing after it. -/
def oneEntryBody (text : String) : Stream :=
  .value (.object [("translations",
    .array [.object [("detected_source_language", .string "EN"), ("text", .string text)]])])
    false

/-- A response with an empty list of entries. -/
def noEntryBody : Stream :=
  .value (.object [("translations", .array [])]) false

/-- A service that answers "Hej" for Swedish and "Hei" for Norwegian Bokmål and
cannot be reached for another target. -/
def sampleClient : HttpClient := fun request =>
  match request.body with
  | .json (.object [_, (_, .string "sv"), _]) => .ok (oneEntryBody "Hej")
  | .json (.object [_, (_, .string "nb"), _]) => .ok (oneEntryBody "Hei")
  | _ => .error "dial tcp: connection refused"

/-- A service that answers "Hej" for Swedish and an empty list for any other
target. -/
def emptyListClient : HttpClient := fun request =>
  match request.body with
  | .json (.object [_, (_, .string "sv"), _]) => .ok (oneEntryBody "Hej")
  | _ => .ok noEntryBody

/-- A response with two entries whose detected languages are not the source. -/
def twoEntryBody : Stream :=
  .value (.object [("translations", .array [
    .object [("detected_source_language", .string "FR"), ("text", .string "Hej")],
    .object [("detected_source_language", .string "DE"), ("text", .string "Hallå")]])])
    false

/-- A response whose entry carries a number where the shape has a string. -/
def typeErrorBody : Stream :=
  .value (.object [("translations",
    .array [.object [("detected_source_language", .number "5"), ("text", .string "Hej")]])])
    false

/-- A response that is a well-formed object followed by other bytes, so that
the body as a whole is not a JSON text. -/
def trailingBytesBody : Stream :=
  .value (.object [("translations",
    .array [.object [("detected_source_language", .string "EN"), ("text", .string "Hej")]])])
    true

/-- An external command that does nothing and succeeds. -/
def idlePnpm : Disk → Disk × Option String := fun disk => (disk, none)

/-- Increasing key order without repetition. -/
def StrMap.Sorted (m : StrMap) : Prop :=
  List.Pairwise (fun a b : String × String => a.1 < b.1) m

/-! ## Stores and loads -/

theorem StrMap.set_of_lt {k k' : String} (v v' : String) (m : StrMap) (h : k < k') :
    StrMap.set ((k', v') :: m) k v = (k, v) :: (k', v') :: m := by
  have h' : k.toList < k'.toList := String.lt_iff_toList_lt.mp h
  unfold StrMap.set
  rw [if_pos h']

theorem StrMap.set_of_eq (k v v' : String) (m : StrMap) :
    StrMap.set ((k, v') :: m) k v = (k, v) :: m := by
  have h' : ¬ k.toList < k.toList := fun h => lt_irrefl k (String.lt_iff_toList_lt.mpr h)
  unfold StrMap.set
  rw [if_neg h', if_pos rfl]

theorem StrMap.set_of_gt {k k' : String} (v v' : String) (m : StrMap) (h : k' < k) :
    StrMap.set ((k', v') :: m) k v = (k', v') :: StrMap.set m k v := by
  have h' : ¬ k.toList < k'.toList :=
    fun h2 => lt_asymm h (String.lt_iff_toList_lt.mpr h2)
  have h3 : k ≠ k' := fun e => lt_irrefl k (e ▸ h)
  conv => lhs; unfold StrMap.set
  rw [if_neg h', if_neg h3]

theorem StrMap.get?_set (m : StrMap) (k v k' : String) :
    (m.set k v).get? k' = if k' = k then some v else m.get? k' := by
  induction m with
  | nil =>
    by_cases h : k' = k <;> simp [StrMap.set, StrMap.get?, h]
  | cons a m ih =>
    obtain ⟨ka, va⟩ := a
    rcases lt_trichotomy k ka with h | h | h
    · rw [StrMap.set_of_lt v va m h]
      by_cases e : k' = k <;> simp [StrMap.get?, e]
    · subst h
      rw [StrMap.set_of_eq]
      by_cases e : k' = k <;> simp [StrMap.get?, e]
    · rw [StrMap.set_of_gt v va m h]
      by_cases e : k' = ka
      · subst e
        have : k' ≠ k := fun e2 => lt_irrefl k (e2 ▸ h)
        simp [StrMap.get?, this]
      · simp [StrMap.get?, e, ih]

theorem StrMap.set_set (m : StrMap) (k v w : String) :
    (m.set k v).set k w = m.set k w := by
  induction m with
  | nil => simp [StrMap.set]
  | cons a m ih =>
    obtain ⟨ka, va⟩ := a
    rcases lt_trichotomy k ka with h | h | h
    · rw [StrMap.set_of_lt v va m h, StrMap.set_of_eq, StrMap.set_of_lt w va m h]
    · subst h
      rw [StrMap.set_of_eq, StrMap.set_of_eq, StrMap.set_of_eq]
    · rw [StrMap.set_of_gt v va m h, StrMap.set_of_gt w va _ h, StrMap.set_of_gt w va m h, ih]

theorem StrMap.key_of_mem_set {m : StrMap} {k v : String} {a : String × String}
    (h : a ∈ m.set k v) : a.1 = k ∨ a ∈ m := by
  induction m with
  | nil => simp [StrMap.set] at h; left; rw [h]
  | cons b m ih =>
    obtain ⟨kb, vb⟩ := b
    rcases lt_trichotomy k kb with hk | hk | hk
    · rw [StrMap.set_of_lt v vb m hk] at h
      rcases List.mem_cons.mp h with h | h
      · left; rw [h]
      · right; exact h
    · subst hk
      rw [StrMap.set_of_eq] at h
      rcases List.mem_cons.mp h with h | h
      · left; rw [h]
      · right; exact List.mem_cons_of_mem _ h
    · rw [StrMap.set_of_gt v vb m hk] at h
      rcases List.mem_cons.mp h with h | h
      · right; rw [h]; exact List.mem_cons_self _ _
      · rcases ih h with h | h
        · left; exact h
        · right; exact List.mem_cons_of_mem _ h

theorem StrMap.sorted_set {m : StrMap} (hm : m.Sorted) (k v : String) :
    (m.set k v).Sorted := by
  induction m with
  | nil => simp [StrMap.set, StrMap.Sorted]
  | cons b m ih =>
    obtain ⟨kb, vb⟩ := b
    unfold StrMap.Sorted at hm ih ⊢
    rw [List.pairwise_cons] at hm
    rcases lt_trichotomy k kb with hk | hk | hk
    · rw [StrMap.set_of_lt v vb m hk, List.pairwise_cons]
      refine ⟨?_, List.pairwise_cons.mpr hm⟩
      intro a ha
      rcases List.mem_cons.mp ha with ha | ha
      · rw [ha]; exact hk
      · exact lt_trans hk (hm.1 a ha)
    · subst hk
      rw [StrMap.set_of_eq, List.pairwise_cons]
      exact ⟨hm.1, hm.2⟩
    · rw [StrMap.set_of_gt v vb m hk, List.pairwise_cons]
      refine ⟨?_, ih hm.2⟩
      intro a ha
      rcases StrMap.key_of_mem_set ha with ha | ha
      · rw [ha]; exact hk
      · exact hm.1 a ha

theorem StrMap.set_append_last (m : StrMap) (k v : String) (h : ∀ a ∈ m, a.1 < k) :
    m.set k v = m ++ [(k, v)] := by
  induction m with
  | nil => simp [StrMap.set]
  | cons b m ih =>
    obtain ⟨kb, vb⟩ := b
    have hb : kb < k := h (kb, vb) (List.mem_cons_self _ _)
    rw [StrMap.set_of_gt v vb m hb, ih fun a ha => h a (List.mem_cons_of_mem _ ha)]
    rfl

/-! ## Decoding and encoding a locale file -/

theorem decodeMembers_sorted (members : List (String × JSON)) (acc : StrMap) (e : Bool)
    (h : acc.Sorted) : (decodeMembers members acc e).1.Sorted := by
  induction members generalizing acc e with
  | nil => exact h
  | cons a rest ih =>
    obtain ⟨k, v⟩ := a
    exact ih _ _ (StrMap.sorted_set h k _)

theorem decodeMembers_get? (members : List (String × JSON)) (acc : StrMap) (e : Bool)
    (k : String) :
    (decodeMembers members acc e).1.get? k =
      match lastMember members k with
      | some w => some (decodeStringElem w).1
      | none => acc.get? k := by
  induction members generalizing acc e with
  | nil => rfl
  | cons a rest ih =>
    obtain ⟨k0, v0⟩ := a
    simp only [decodeMembers, lastMember]
    rw [ih]
    cases hl : lastMember rest k with
    | some w => rfl
    | none =>
      simp only [StrMap.get?_set]
      by_cases hk : k = k0 <;> simp [hk]

theorem lastMember_string {members : List (String × JSON)} (h : allStrings members = true)
    {k : String} {w : JSON} (hw : lastMember members k = some w) : ∃ s, w = JSON.string s := by
  induction members with
  | nil => simp [lastMember] at hw
  | cons a rest ih =>
    obtain ⟨k0, v0⟩ := a
    cases v0 with
    | string s0 =>
      simp only [allStrings] at h
      simp only [lastMember] at hw
      cases hl : lastMember rest k with
      | some w2 =>
        rw [hl] at hw
        simp only [Option.some.injEq] at hw
        subst hw
        exact ih h hl
      | none =>
        rw [hl] at hw
        by_cases hk : k = k0
        · simp [hk] at hw
          exact ⟨s0, hw.symm⟩
        · simp [hk] at hw
    | null => simp [allStrings] at h
    | bool b => simp [allStrings] at h
    | number n => simp [allStrings] at h
    | array xs => simp [allStrings] at h
    | object ms => simp [allStrings] at h

theorem memberText_eq_decoded {members : List (String × JSON)}
    (h : allStrings members = true) (e : Bool) (k : String) :
    memberText members k = (decodeMembers members [] e).1.get? k := by
  rw [decodeMembers_get?]
  unfold memberText
  cases hl : lastMember members k with
  | none => rfl
  | some w =>
    obtain ⟨s, rfl⟩ := lastMember_string h hl
    rfl

theorem allStrings_encode (m : StrMap) :
    allStrings (m.map fun kv => (kv.1, JSON.string kv.2)) = true := by
  induction m with
  | nil => rfl
  | cons a m ih => simpa [allStrings] using ih

theorem decodeMembers_encode (m acc : StrMap) (e : Bool) (h : StrMap.Sorted (acc ++ m)) :
    decodeMembers (m.map fun kv => (kv.1, JSON.string kv.2)) acc e = (acc ++ m, e) := by
  induction m generalizing acc e with
  | nil => simp [decodeMembers]
  | cons a m ih =>
    obtain ⟨k, v⟩ := a
    have hlt : ∀ b ∈ acc, b.1 < k := by
      intro b hb
      unfold StrMap.Sorted at h
      rw [List.pairwise_append] at h
      exact h.2.2 b hb (k, v) (List.mem_cons_self _ _)
    simp only [List.map_cons, decodeMembers, decodeStringElem, Bool.or_false]
    rw [StrMap.set_append_last acc k v hlt, ih]
    · simp
    · simpa using h

theorem Unmarshal_MarshalIndent (m : StrMap) (h : m.Sorted) :
    Unmarshal (MarshalIndent (some m)) none = (some m, false) := by
  simp [Unmarshal, MarshalIndent, decodeMembers_encode m [] false (by simpa using h)]

theorem fileMaps_MarshalIndent (m : StrMap) (h : m.Sorted) (k : String) :
    fileMaps (some (MarshalIndent (some m))) k = m.get? k := by
  simp only [fileMaps, MarshalIndent]
  rw [memberText_eq_decoded (allStrings_encode m) false k,
    decodeMembers_encode m [] false (by simpa using h)]
  simp

/-! ## One step of the locale store and the loop -/

theorem holdsObject_iff {file : Option Content} :
    holdsObject file = true ↔ ∃ members, file = some (.json (.object members)) := by
  constructor
  · intro h
    cases file with
    | none => simp [holdsObject] at h
    | some c =>
      cases c with
      | notJSON => simp [holdsObject] at h
      | json v =>
        cases v with
        | object ms => exact ⟨ms, rfl⟩
        | null => simp [holdsObject] at h
        | bool b => simp [holdsObject] at h
        | number n => simp [holdsObject] at h
        | string x => simp [holdsObject] at h
        | array xs => simp [holdsObject] at h
  · rintro ⟨ms, rfl⟩
    rfl

theorem holdsFlatObject_iff {file : Option Content} :
    holdsFlatObject file = true ↔
      ∃ members, file = some (.json (.object members)) ∧ allStrings members = true := by
  constructor
  · intro h
    cases file with
    | none => simp [holdsFlatObject] at h
    | some c =>
      cases c with
      | notJSON => simp [holdsFlatObject] at h
      | json v =>
        cases v with
        | object ms => exact ⟨ms, rfl, h⟩
        | null => simp [holdsFlatObject] at h
        | bool b => simp [holdsFlatObject] at h
        | number n => simp [holdsFlatObject] at h
        | string x => simp [holdsFlatObject] at h
        | array xs => simp [holdsFlatObject] at h
  · rintro ⟨ms, rfl, h⟩
    exact h

theorem fileMaps_after_store (members : List (String × JSON)) (key text k : String) :
    fileMaps (some (MarshalIndent (some ((decodeMembers members [] false).1.set key text)))) k =
      if k = key then some text else (decodeMembers members [] false).1.get? k := by
  rw [fileMaps_MarshalIndent _
    (StrMap.sorted_set (decodeMembers_sorted members [] false List.Pairwise.nil) key text),
    StrMap.get?_set]

theorem norwegianConfusionHack_idem (c : String) :
    norwegianConfusionHack (norwegianConfusionHack c) = norwegianConfusionHack c := by
  unfold norwegianConfusionHack
  by_cases h : c = "nb"
  · simp [h]
  · simp [h]

theorem fileReads_object (members : List (String × JSON)) (k : String) :
    fileReads (some (.json (.object members))) k = (decodeMembers members [] false).1.get? k := by
  rw [decodeMembers_get?]
  simp only [fileReads, memberRead]
  cases hl : lastMember members k with
  | none => rfl
  | some w => cases w <;> rfl

theorem fileReads_MarshalIndent (m : StrMap) (h : m.Sorted) (k : String) :
    fileReads (some (MarshalIndent (some m))) k = m.get? k := by
  simp only [MarshalIndent]
  rw [fileReads_object, decodeMembers_encode m [] false (by simpa using h)]
  simp

theorem fileReads_of_flat {file : Option Content} (h : holdsFlatObject file = true)
    (k : String) : fileReads file k = fileMaps file k := by
  obtain ⟨ms, rfl, hall⟩ := holdsFlatObject_iff.mp h
  rw [fileReads_object]
  exact (memberText_eq_decoded hall false k).symm

theorem writable_iff (disk : Disk) (path : String) :
    disk.writable path = true ↔ disk.mode (disk.resolve path) = .succeeds := by
  simp [Disk.writable]

theorem WriteFile_resolve (disk : Disk) (path : String) (data : Content) :
    (WriteFile disk path data).1.resolve = disk.resolve := by
  unfold WriteFile
  cases disk.mode (disk.resolve path) <;> rfl

theorem WriteFile_mode (disk : Disk) (path : String) (data : Content) :
    (WriteFile disk path data).1.mode = disk.mode := by
  unfold WriteFile
  cases disk.mode (disk.resolve path) <;> rfl

theorem WriteFile_files_other (disk : Disk) (path : String) (data : Content) {f : String}
    (h : f ≠ disk.resolve path) : (WriteFile disk path data).1.files f = disk.files f := by
  unfold WriteFile
  cases disk.mode (disk.resolve path) <;> simp [h]

theorem WriteFile_files_same (disk : Disk) (path : String) (data : Content)
    (h : disk.mode (disk.resolve path) = .succeeds) :
    (WriteFile disk path data).1.files (disk.resolve path) = some data := by
  unfold WriteFile
  rw [h]
  simp

theorem WriteFile_writable (disk : Disk) (path : String) (data : Content) (q : String) :
    (WriteFile disk path data).1.writable q = disk.writable q := by
  simp only [Disk.writable, WriteFile_resolve, WriteFile_mode]

theorem WriteFile_file_same (disk : Disk) (path : String) (data : Content) {q : String}
    (h : disk.writable path = true) (hq : disk.resolve q = disk.resolve path) :
    (WriteFile disk path data).1.file q = some data := by
  simp only [Disk.file, WriteFile_resolve]
  rw [hq]
  exact WriteFile_files_same disk path data ((writable_iff disk path).mp h)

theorem WriteFile_file_other (disk : Disk) (path : String) (data : Content) {q : String}
    (hq : disk.resolve q ≠ disk.resolve path) :
    (WriteFile disk path data).1.file q = disk.file q := by
  simp only [Disk.file, WriteFile_resolve]
  exact WriteFile_files_other disk path data hq

theorem persist_cons_object (t : Translation) (rest : List Translation) (key : String)
    (disk : Disk) {members : List (String × JSON)}
    (h : disk.file (outputPath t.Lang) = some (.json (.object members))) :
    persistToLocaleFiles (t :: rest) key disk =
      persistToLocaleFiles rest key (WriteFile disk (outputPath t.Lang)
        (MarshalIndent (some ((decodeMembers members [] false).1.set key t.Text)))).1 := by
  simp [persistToLocaleFiles, ReadFile, Unmarshal, mapassign, h]

theorem persist_cons_not_object (t : Translation) (rest : List Translation) (key : String)
    (disk : Disk) (h : holdsObject (disk.file (outputPath t.Lang)) = false) :
    persistToLocaleFiles (t :: rest) key disk = .panicked disk := by
  cases hc : disk.file (outputPath t.Lang) with
  | none => simp [persistToLocaleFiles, ReadFile, Unmarshal, mapassign, hc]
  | some c =>
    cases c with
    | notJSON => simp [persistToLocaleFiles, ReadFile, Unmarshal, mapassign, hc]
    | json v =>
      cases v with
      | object ms => simp [hc, holdsObject] at h
      | null => simp [persistToLocaleFiles, ReadFile, Unmarshal, mapassign, hc]
      | bool b => simp [persistToLocaleFiles, ReadFile, Unmarshal, mapassign, hc]
      | number n => simp [persistToLocaleFiles, ReadFile, Unmarshal, mapassign, hc]
      | string x => simp [persistToLocaleFiles, ReadFile, Unmarshal, mapassign, hc]
      | array xs => simp [persistToLocaleFiles, ReadFile, Unmarshal, mapassign, hc]

theorem persist_resolve (ts : List Translation) (key : String) (disk : Disk) :
    (persistToLocaleFiles ts key disk).disk.resolve = disk.resolve := by
  induction ts generalizing disk with
  | nil => rfl
  | cons t rest ih =>
    cases ho : holdsObject (disk.file (outputPath t.Lang)) with
    | false => rw [persist_cons_not_object t rest key disk ho]; rfl
    | true =>
      obtain ⟨ms, hms⟩ := holdsObject_iff.mp ho
      rw [persist_cons_object t rest key disk hms, ih, WriteFile_resolve]

theorem persist_mode (ts : List Translation) (key : String) (disk : Disk) :
    (persistToLocaleFiles ts key disk).disk.mode = disk.mode := by
  induction ts generalizing disk with
  | nil => rfl
  | cons t rest ih =>
    cases ho : holdsObject (disk.file (outputPath t.Lang)) with
    | false => rw [persist_cons_not_object t rest key disk ho]; rfl
    | true =>
      obtain ⟨ms, hms⟩ := holdsObject_iff.mp ho
      rw [persist_cons_object t rest key disk hms, ih, WriteFile_mode]

theorem persist_files_other (ts : List Translation) (key : String) (disk : Disk) (f : String)
    (h : ∀ t ∈ ts, disk.resolve (outputPath t.Lang) ≠ f) :
    (persistToLocaleFiles ts key disk).disk.files f = disk.files f := by
  induction ts generalizing disk with
  | nil => rfl
  | cons t rest ih =>
    have ht : disk.resolve (outputPath t.Lang) ≠ f := h t (List.mem_cons_self _ _)
    cases ho : holdsObject (disk.file (outputPath t.Lang)) with
    | false => rw [persist_cons_not_object t rest key disk ho]; rfl
    | true =>
      obtain ⟨ms, hms⟩ := holdsObject_iff.mp ho
      rw [persist_cons_object t rest key disk hms, ih]
      · exact WriteFile_files_other disk _ _ (Ne.symm ht)
      · intro u hu
        rw [WriteFile_resolve]
        exact h u (List.mem_cons_of_mem _ hu)

theorem persist_file_other (ts : List Translation) (key : String) (disk : Disk) (path : String)
    (h : ∀ t ∈ ts, disk.resolve (outputPath t.Lang) ≠ disk.resolve path) :
    (persistToLocaleFiles ts key disk).disk.file path = disk.file path := by
  simp only [Disk.file, persist_resolve]
  exact persist_files_other ts key disk _ h

theorem persist_append (xs ys : List Translation) (key : String) (disk : Disk) :
    persistToLocaleFiles (xs ++ ys) key disk =
      match persistToLocaleFiles xs key disk with
      | .done disk1 => persistToLocaleFiles ys key disk1
      | .panicked disk1 => .panicked disk1 := by
  induction xs generalizing disk with
  | nil => rfl
  | cons t rest ih =>
    cases ho : holdsObject (disk.file (outputPath t.Lang)) with
    | false =>
      rw [List.cons_append, persist_cons_not_object t _ key disk ho,
        persist_cons_not_object t _ key disk ho]
    | true =>
      obtain ⟨ms, hms⟩ := holdsObject_iff.mp ho
      rw [List.cons_append, persist_cons_object t _ key disk hms,
        persist_cons_object t _ key disk hms, ih]

theorem persist_completes (ts : List Translation) (key : String) (disk : Disk)
    (hobj : ∀ t ∈ ts, holdsObject (disk.file (outputPath t.Lang)) = true)
    (hw : ∀ t ∈ ts, disk.writable (outputPath t.Lang) = true) :
    ∃ disk1, persistToLocaleFiles ts key disk = .done disk1 := by
  induction ts generalizing disk with
  | nil => exact ⟨disk, rfl⟩
  | cons t rest ih =>
    obtain ⟨ms, hms⟩ := holdsObject_iff.mp (hobj t (List.mem_cons_self _ _))
    have hwt := hw t (List.mem_cons_self _ _)
    rw [persist_cons_object t rest key disk hms]
    apply ih
    · intro u hu
      by_cases hp : disk.resolve (outputPath u.Lang) = disk.resolve (outputPath t.Lang)
      · rw [WriteFile_file_same disk _ _ hwt hp]; rfl
      · rw [WriteFile_file_other disk _ _ hp]
        exact hobj u (List.mem_cons_of_mem _ hu)
    · intro u hu
      rw [WriteFile_writable]
      exact hw u (List.mem_cons_of_mem _ hu)

theorem persist_keeps_reads (ts : List Translation) (key : String) (disk : Disk)
    (hw : ∀ t ∈ ts, disk.writable (outputPath t.Lang) = true) (f k : String) (hk : k ≠ key) :
    fileReads ((persistToLocaleFiles ts key disk).disk.files f) k = fileReads (disk.files f) k := by
  induction ts generalizing disk with
  | nil => rfl
  | cons t rest ih =>
    cases ho : holdsObject (disk.file (outputPath t.Lang)) with
    | false => rw [persist_cons_not_object t rest key disk ho]; rfl
    | true =>
      obtain ⟨ms, hms⟩ := holdsObject_iff.mp ho
      have hwt := hw t (List.mem_cons_self _ _)
      rw [persist_cons_object t rest key disk hms, ih]
      · by_cases hf : f = disk.resolve (outputPath t.Lang)
        · subst hf
          rw [WriteFile_files_same disk _ _ ((writable_iff disk _).mp hwt),
            fileReads_MarshalIndent _
              (StrMap.sorted_set (decodeMembers_sorted ms [] false List.Pairwise.nil) key t.Text),
            StrMap.get?_set, if_neg hk]
          have hfile : disk.files (disk.resolve (outputPath t.Lang)) =
              some (.json (.object ms)) := hms
          rw [hfile, fileReads_object]
        · rw [WriteFile_files_other disk _ _ hf]
      · intro u hu
        rw [WriteFile_writable]
        exact hw u (List.mem_cons_of_mem _ hu)

theorem persist_entry_done {pre post : List Translation} {t : Translation} {key : String}
    {disk disk' : Disk} (hdone : persistToLocaleFiles (pre ++ t :: post) key disk = .done disk')
    (hpost : ∀ u ∈ post, disk.resolve (outputPath u.Lang) ≠ disk.resolve (outputPath t.Lang))
    (hw : disk.writable (outputPath t.Lang) = true) :
    ∃ disk1 members, persistToLocaleFiles pre key disk = .done disk1 ∧
      disk1.file (outputPath t.Lang) = some (.json (.object members)) ∧
      disk'.file (outputPath t.Lang) =
        some (MarshalIndent (some ((decodeMembers members [] false).1.set key t.Text))) := by
  rw [persist_append] at hdone
  cases hpre : persistToLocaleFiles pre key disk with
  | panicked disk1 => rw [hpre] at hdone; cases hdone
  | done disk1 =>
    rw [hpre] at hdone
    simp only at hdone
    have hres : disk1.resolve = disk.resolve := by
      have := persist_resolve pre key disk
      rw [hpre] at this
      exact this
    have hmode : disk1.mode = disk.mode := by
      have := persist_mode pre key disk
      rw [hpre] at this
      exact this
    have hw1 : disk1.writable (outputPath t.Lang) = true := by
      simp only [Disk.writable, hres, hmode]
      exact hw
    cases ho : holdsObject (disk1.file (outputPath t.Lang)) with
    | false => rw [persist_cons_not_object t post key disk1 ho] at hdone; cases hdone
    | true =>
      obtain ⟨ms, hms⟩ := holdsObject_iff.mp ho
      refine ⟨disk1, ms, rfl, hms, ?_⟩
      rw [persist_cons_object t post key disk1 hms] at hdone
      have hframe := persist_file_other post key (WriteFile disk1 (outputPath t.Lang)
        (MarshalIndent (some ((decodeMembers ms [] false).1.set key t.Text)))).1
        (outputPath t.Lang) (by
          intro u hu
          rw [WriteFile_resolve, hres]
          exact hpost u hu)
      rw [hdone] at hframe
      exact hframe.trans (WriteFile_file_same disk1 _ _ hw1 rfl)

theorem persist_panics_of_not_object {translations : List Translation} {t : Translation}
    (key : String) {disk : Disk} (ht : t ∈ translations)
    (hbad : holdsObject (disk.file (outputPath t.Lang)) = false) :
    (persistToLocaleFiles translations key disk).completed = false ∧
      (persistToLocaleFiles translations key disk).disk.file (outputPath t.Lang) =
        disk.file (outputPath t.Lang) := by
  induction translations generalizing disk with
  | nil => cases ht
  | cons u rest ih =>
    cases ho : holdsObject (disk.file (outputPath u.Lang)) with
    | false =>
      rw [persist_cons_not_object u rest key disk ho]
      exact ⟨rfl, rfl⟩
    | true =>
      have hne : disk.resolve (outputPath t.Lang) ≠ disk.resolve (outputPath u.Lang) := by
        intro e
        have : disk.file (outputPath t.Lang) = disk.file (outputPath u.Lang) := by
          simp only [Disk.file, e]
        rw [this, ho] at hbad
        cases hbad
      have htr : t ∈ rest := by
        rcases List.mem_cons.mp ht with h | h
        · exact absurd (congrArg (fun x : Translation => disk.resolve (outputPath x.Lang)) h) hne
        · exact h
      obtain ⟨ms, hms⟩ := holdsObject_iff.mp ho
      rw [persist_cons_object u rest key disk hms]
      have hkeep := WriteFile_file_other disk (outputPath u.Lang)
        (MarshalIndent (some ((decodeMembers ms [] false).1.set key u.Text))) hne
      have hbad2 : holdsObject ((WriteFile disk (outputPath u.Lang)
          (MarshalIndent (some ((decodeMembers ms [] false).1.set key u.Text)))).1.file
          (outputPath t.Lang)) = false := by rw [hkeep]; exact hbad
      have hrec := ih htr hbad2
      exact ⟨hrec.1, hrec.2.trans hkeep⟩

theorem persist_entry_result {pre post : List Translation} {t : Translation} {key : String}
    {disk disk' : Disk} (hdone : persistToLocaleFiles (pre ++ t :: post) key disk = .done disk')
    (hpost : ∀ u ∈ post, disk.resolve (outputPath u.Lang) ≠ disk.resolve (outputPath t.Lang))
    (hw : ∀ u ∈ pre ++ t :: post, disk.writable (outputPath u.Lang) = true) :
    holdsFlatObject (disk'.file (outputPath t.Lang)) = true ∧
      fileMaps (disk'.file (outputPath t.Lang)) key = some t.Text ∧
      ∀ k, k ≠ key →
        fileMaps (disk'.file (outputPath t.Lang)) k = fileReads (disk.file (outputPath t.Lang)) k := by
  have hwt : disk.writable (outputPath t.Lang) = true :=
    hw t (List.mem_append_right _ (List.mem_cons_self _ _))
  obtain ⟨disk1, ms, hpre, hms, hfinal⟩ := persist_entry_done hdone hpost hwt
  refine ⟨?_, ?_, ?_⟩
  · rw [hfinal]
    exact allStrings_encode _
  · rw [hfinal, fileMaps_after_store, if_pos rfl]
  · intro k hk
    rw [hfinal, fileMaps_after_store, if_neg hk, ← fileReads_object, ← hms]
    have hres : disk1.resolve = disk.resolve := by
      have := persist_resolve pre key disk
      rw [hpre] at this
      exact this
    have hkeep := persist_keeps_reads pre key disk
      (fun u hu => hw u (List.mem_append_left _ hu)) (disk.resolve (outputPath t.Lang)) k hk
    rw [hpre] at hkeep
    simp only [Disk.file, hres]
    exact hkeep

theorem WriteFile_file_self (disk : Disk) (path : String) (data : Content) :
    (WriteFile disk path data).1.file path =
      match disk.mode (disk.resolve path) with
      | .succeeds => some data
      | .refused => disk.file path
      | .torn => some .notJSON := by
  simp only [Disk.file, WriteFile_resolve]
  unfold WriteFile
  cases disk.mode (disk.resolve path) <;> simp

theorem WriteFile_WriteFile (disk : Disk) (path : String) (c d : Content)
    (h : disk.writable path = true) :
    (WriteFile (WriteFile disk path c).1 path d).1 = (WriteFile disk path d).1 := by
  have hm := (writable_iff disk path).mp h
  have h1 : (WriteFile disk path c).1 =
      { disk with files := fun f => if f = disk.resolve path then some c else disk.files f } := by
    unfold WriteFile
    rw [hm]
  have h2 : (WriteFile disk path d).1 =
      { disk with files := fun f => if f = disk.resolve path then some d else disk.files f } := by
    unfold WriteFile
    rw [hm]
  rw [h1, h2]
  unfold WriteFile
  simp only [hm]
  congr 1
  funext f
  by_cases hf : f = disk.resolve path <;> simp [hf]

/-! ## The claims about the locale store -/

/-- C1 fails as stated: the English sample file holds a flat object and is the
only file named, yet when it cannot be opened for writing the call returns
normally (the error of the write is discarded) and the file does not map the
key to anything. -/
theorem persist_refused_write_leaves_key_unset :
    ([⟨"en", "Hello"⟩].map fun t : Translation => lockedDisk.resolve (outputPath t.Lang)).Nodup ∧
    (∀ t ∈ ([⟨"en", "Hello"⟩] : List Translation),
      holdsFlatObject (lockedDisk.file (outputPath t.Lang)) = true) ∧
    (persistToLocaleFiles [⟨"en", "Hello"⟩] "greeting" lockedDisk).completed = true ∧
    fileMaps ((persistToLocaleFiles [⟨"en", "Hello"⟩] "greeting" lockedDisk).disk.file
      (outputPath "en")) "greeting" = none :=
  ⟨by decide, by decide, by decide, by decide⟩

/-- C1 as amended: when the translations name pairwise distinct locale files
and each of those files holds a flat string-to-string JSON object and can be
written, `persistToLocaleFiles` returns, and afterwards the file of each
translation is again such an object, maps the key to that translation's text,
and gives every other key exactly the text (or absence) it had before. -/
theorem persist_upserts_key_and_preserves_others (translations : List Translation)
    (key : String) (disk : Disk)
    (hdistinct : (translations.map fun t => disk.resolve (outputPath t.Lang)).Nodup)
    (hflat : ∀ t ∈ translations, holdsFlatObject (disk.file (outputPath t.Lang)) = true)
    (hwrite : ∀ t ∈ translations, disk.writable (outputPath t.Lang) = true) :
    ∃ disk', persistToLocaleFiles translations key disk = .done disk' ∧
      ∀ t ∈ translations,
        holdsFlatObject (disk'.file (outputPath t.Lang)) = true ∧
        fileMaps (disk'.file (outputPath t.Lang)) key = some t.Text ∧
        ∀ k, k ≠ key →
          fileMaps (disk'.file (outputPath t.Lang)) k =
            fileMaps (disk.file (outputPath t.Lang)) k := by
  have hobj : ∀ t ∈ translations, holdsObject (disk.file (outputPath t.Lang)) = true := by
    intro t ht
    obtain ⟨ms, hms, _⟩ := holdsFlatObject_iff.mp (hflat t ht)
    exact holdsObject_iff.mpr ⟨ms, hms⟩
  obtain ⟨disk', hdone⟩ := persist_completes translations key disk hobj hwrite
  refine ⟨disk', hdone, ?_⟩
  intro t ht
  obtain ⟨pre, post, hsplit⟩ := List.mem_iff_append.mp ht
  subst hsplit
  rw [List.map_append, List.map_cons, List.nodup_append] at hdistinct
  obtain ⟨_, hnd, _⟩ := hdistinct
  have hpost : ∀ u ∈ post,
      disk.resolve (outputPath u.Lang) ≠ disk.resolve (outputPath t.Lang) := by
    intro u hu e
    exact (List.nodup_cons.mp hnd).1
      (e ▸ List.mem_map_of_mem (fun t => disk.resolve (outputPath t.Lang)) hu)
  obtain ⟨h1, h2, h3⟩ := persist_entry_result hdone hpost hwrite
  refine ⟨h1, h2, ?_⟩
  intro k hk
  rw [h3 k hk]
  exact fileReads_of_flat (hflat t ht) k

/-- Witness of C1 as amended on three locale files. -/
theorem persist_upserts_key_and_preserves_others_witness :
    ([⟨"en", "Hello"⟩, ⟨"sv", "Hej"⟩, ⟨"nb", "Hei"⟩].map
        fun t : Translation => sampleDisk.resolve (outputPath t.Lang)).Nodup ∧
    (∀ t ∈ ([⟨"en", "Hello"⟩, ⟨"sv", "Hej"⟩, ⟨"nb", "Hei"⟩] : List Translation),
        holdsFlatObject (sampleDisk.file (outputPath t.Lang)) = true) ∧
    (∀ t ∈ ([⟨"en", "Hello"⟩, ⟨"sv", "Hej"⟩, ⟨"nb", "Hei"⟩] : List Translation),
        sampleDisk.writable (outputPath t.Lang) = true) ∧
    ∃ disk', persistToLocaleFiles [⟨"en", "Hello"⟩, ⟨"sv", "Hej"⟩, ⟨"nb", "Hei"⟩]
        "greeting" sampleDisk = .done disk' ∧
      ∀ t ∈ ([⟨"en", "Hello"⟩, ⟨"sv", "Hej"⟩, ⟨"nb", "Hei"⟩] : List Translation),
        holdsFlatObject (disk'.file (outputPath t.Lang)) = true ∧
        fileMaps (disk'.file (outputPath t.Lang)) "greeting" = some t.Text ∧
        ∀ k, k ≠ "greeting" →
          fileMaps (disk'.file (outputPath t.Lang)) k =
            fileMaps (sampleDisk.file (outputPath t.Lang)) k :=
  ⟨by decide, by decide, by decide,
    persist_upserts_key_and_preserves_others _ "greeting" sampleDisk
      (by decide) (by decide) (by decide)⟩

/-- C10 fails as stated: with entries for English, Swedish and English again,
the English file holding a flat object and the Swedish file missing, the call
panics at the Swedish entry and the English file keeps the text of the first
entry, not of the last; and with two English entries on a file that cannot be
opened for writing the call returns and the file maps the key to nothing. -/
theorem persist_earlier_text_stays :
    holdsFlatObject (englishOnlyDisk.file (outputPath "en")) = true ∧
    (persistToLocaleFiles [⟨"en", "A"⟩, ⟨"sv", "B"⟩, ⟨"en", "C"⟩] "greeting"
      englishOnlyDisk).completed = false ∧
    fileMaps ((persistToLocaleFiles [⟨"en", "A"⟩, ⟨"sv", "B"⟩, ⟨"en", "C"⟩] "greeting"
      englishOnlyDisk).disk.file (outputPath "en")) "greeting" = some "A" ∧
    holdsFlatObject (lockedDisk.file (outputPath "en")) = true ∧
    (persistToLocaleFiles [⟨"en", "A"⟩, ⟨"en", "C"⟩] "greeting" lockedDisk).completed = true ∧
    fileMaps ((persistToLocaleFiles [⟨"en", "A"⟩, ⟨"en", "C"⟩] "greeting"
      lockedDisk).disk.file (outputPath "en")) "greeting" = none :=
  ⟨by decide, by decide, by decide, by decide, by decide, by decide⟩

/-- C10 as amended: when every locale file named by the list holds a JSON
object and can be written, `persistToLocaleFiles` returns and afterwards each
of those files maps the key to the text of the last entry of the list that
resolves to it, the texts of the earlier entries for the file being
overwritten; the file name remapping is idempotent and sends the distinct codes
"nb" and "no" to the same name. -/
theorem persist_last_entry_for_a_file_wins (translations : List Translation) (key : String)
    (disk : Disk)
    (hobj : ∀ t ∈ translations, holdsObject (disk.file (outputPath t.Lang)) = true)
    (hwrite : ∀ t ∈ translations, disk.writable (outputPath t.Lang) = true) :
    (∃ disk', persistToLocaleFiles translations key disk = .done disk' ∧
      ∀ pre t post, translations = pre ++ t :: post →
        (∀ u ∈ post, disk.resolve (outputPath u.Lang) ≠ disk.resolve (outputPath t.Lang)) →
        fileMaps (disk'.file (outputPath t.Lang)) key = some t.Text) ∧
    (∀ c, norwegianConfusionHack (norwegianConfusionHack c) = norwegianConfusionHack c) ∧
    norwegianConfusionHack "nb" = norwegianConfusionHack "no" ∧
    outputPath "nb" = outputPath "no" ∧ "nb" ≠ "no" := by
  refine ⟨?_, norwegianConfusionHack_idem, by decide, by decide, by decide⟩
  obtain ⟨disk', hdone⟩ := persist_completes translations key disk hobj hwrite
  refine ⟨disk', hdone, ?_⟩
  intro pre t post hsplit hpost
  subst hsplit
  exact (persist_entry_result hdone hpost hwrite).2.1

/-- Witness of C10 as amended: "no" and then "nb" both write `locale/no.json`,
with an entry for another file in between; the text of "nb" is the one that
stays. -/
theorem persist_last_entry_for_a_file_wins_witness :
    (∀ t ∈ ([⟨"no", "Hallo"⟩, ⟨"sv", "Hej"⟩, ⟨"nb", "Hei"⟩] : List Translation),
      holdsObject (sampleDisk.file (outputPath t.Lang)) = true) ∧
    (∀ t ∈ ([⟨"no", "Hallo"⟩, ⟨"sv", "Hej"⟩, ⟨"nb", "Hei"⟩] : List Translation),
      sampleDisk.writable (outputPath t.Lang) = true) ∧
    ∃ disk', persistToLocaleFiles [⟨"no", "Hallo"⟩, ⟨"sv", "Hej"⟩, ⟨"nb", "Hei"⟩]
        "greeting" sampleDisk = .done disk' ∧
      fileMaps (disk'.file (outputPath "no")) "greeting" = some "Hei" := by
  have h := persist_last_entry_for_a_file_wins
    [⟨"no", "Hallo"⟩, ⟨"sv", "Hej"⟩, ⟨"nb", "Hei"⟩] "greeting" sampleDisk
    (by decide) (by decide)
  obtain ⟨disk', hdone, hlast⟩ := h.1
  exact ⟨by decide, by decide, disk', hdone,
    hlast [⟨"no", "Hallo"⟩, ⟨"sv", "Hej"⟩] ⟨"nb", "Hei"⟩ [] rfl (by simp)⟩

/-- C5 fails as stated: the English sample file holds a flat object, but when
it cannot be opened for writing both runs return normally and the file maps
the key to nothing instead of the second text. -/
theorem persist_again_on_refused_write :
    holdsFlatObject (lockedDisk.file (outputPath "en")) = true ∧
    (persistToLocaleFiles [⟨"en", "Hello"⟩] "greeting" lockedDisk).completed = true ∧
    (persistToLocaleFiles [⟨"en", "Hi"⟩] "greeting"
      (persistToLocaleFiles [⟨"en", "Hello"⟩] "greeting" lockedDisk).disk).completed = true ∧
    fileMaps ((persistToLocaleFiles [⟨"en", "Hi"⟩] "greeting"
      (persistToLocaleFiles [⟨"en", "Hello"⟩] "greeting" lockedDisk).disk).disk.file
      (outputPath "en")) "greeting" = none :=
  ⟨by decide, by decide, by decide, by decide⟩

/-- C5 as amended: on a locale file that holds a flat string-to-string JSON
object and can be written, persisting `(lang, t1)` and then `(lang, t2)` under
the same key both return, and leave the file mapping the key to `t2` and every
other key to what it had before the first run; the disk is the one that
persisting `(lang, t2)` alone leaves. -/
theorem persist_again_overwrites_that_key_only (lang key t1 t2 : String) (disk : Disk)
    (hflat : holdsFlatObject (disk.file (outputPath lang)) = true)
    (hwrite : disk.writable (outputPath lang) = true) :
    ∃ disk1 disk2, persistToLocaleFiles [⟨lang, t1⟩] key disk = .done disk1 ∧
      persistToLocaleFiles [⟨lang, t2⟩] key disk1 = .done disk2 ∧
      fileMaps (disk2.file (outputPath lang)) key = some t2 ∧
      (∀ k, k ≠ key →
        fileMaps (disk2.file (outputPath lang)) k = fileMaps (disk.file (outputPath lang)) k) ∧
      persistToLocaleFiles [⟨lang, t2⟩] key disk = .done disk2 := by
  obtain ⟨ms, hms, hall⟩ := holdsFlatObject_iff.mp hflat
  have hsorted : (decodeMembers ms [] false).1.Sorted :=
    decodeMembers_sorted ms [] false List.Pairwise.nil
  have h1 : persistToLocaleFiles [⟨lang, t1⟩] key disk =
      .done (WriteFile disk (outputPath lang)
        (MarshalIndent (some ((decodeMembers ms [] false).1.set key t1)))).1 := by
    rw [persist_cons_object ⟨lang, t1⟩ [] key disk hms]
    rfl
  have h2 : persistToLocaleFiles [⟨lang, t2⟩] key disk =
      .done (WriteFile disk (outputPath lang)
        (MarshalIndent (some ((decodeMembers ms [] false).1.set key t2)))).1 := by
    rw [persist_cons_object ⟨lang, t2⟩ [] key disk hms]
    rfl
  have hmid : (WriteFile disk (outputPath lang)
      (MarshalIndent (some ((decodeMembers ms [] false).1.set key t1)))).1.file (outputPath lang) =
      some (MarshalIndent (some ((decodeMembers ms [] false).1.set key t1))) :=
    WriteFile_file_same disk _ _ hwrite rfl
  have h3 : persistToLocaleFiles [⟨lang, t2⟩] key (WriteFile disk (outputPath lang)
        (MarshalIndent (some ((decodeMembers ms [] false).1.set key t1)))).1 =
      .done (WriteFile disk (outputPath lang)
        (MarshalIndent (some ((decodeMembers ms [] false).1.set key t2)))).1 := by
    simp only [persistToLocaleFiles, ReadFile, hmid]
    rw [Unmarshal_MarshalIndent _ (StrMap.sorted_set hsorted key t1)]
    simp only [mapassign, StrMap.set_set]
    rw [WriteFile_WriteFile disk _ _ _ hwrite]
  refine ⟨_, _, h1, h3, ?_, ?_, h2⟩
  · rw [WriteFile_file_same disk _ _ hwrite rfl, fileMaps_after_store, if_pos rfl]
  · intro k hk
    rw [WriteFile_file_same disk _ _ hwrite rfl, fileMaps_after_store, if_neg hk, hms]
    exact (memberText_eq_decoded hall false k).symm

/-- Witness of C5 as amended on the English sample file. -/
theorem persist_again_overwrites_that_key_only_witness :
    holdsFlatObject (sampleDisk.file (outputPath "en")) = true ∧
    sampleDisk.writable (outputPath "en") = true ∧
    ∃ disk1 disk2, persistToLocaleFiles [⟨"en", "Hello"⟩] "greeting" sampleDisk = .done disk1 ∧
      persistToLocaleFiles [⟨"en", "Hi"⟩] "greeting" disk1 = .done disk2 ∧
      fileMaps (disk2.file (outputPath "en")) "greeting" = some "Hi" ∧
      (∀ k, k ≠ "greeting" →
        fileMaps (disk2.file (outputPath "en")) k =
          fileMaps (sampleDisk.file (outputPath "en")) k) ∧
      persistToLocaleFiles [⟨"en", "Hi"⟩] "greeting" sampleDisk = .done disk2 :=
  ⟨by decide, by decide,
    persist_again_overwrites_that_key_only "en" "greeting" "Hello" "Hi" sampleDisk
      (by decide) (by decide)⟩

/-- C2: the file name for "nb" is "no" and its path is `locale/no.json`; for
every other code the name is the code itself and the path is
`locale/<code>.json`; and persisting a translation for a code reads the file
that path names only (the outcome depends on the disk through what that file
holds and whether it can be written) and writes that file only. -/
theorem locale_file_of_language_code (c : String) :
    norwegianConfusionHack "nb" = "no" ∧ outputPath "nb" = "locale/no.json" ∧
    (c ≠ "nb" → norwegianConfusionHack c = c ∧ outputPath c = "locale/" ++ c ++ ".json") ∧
    ∀ (text key : String) (disk : Disk),
      (∀ f, f ≠ disk.resolve (outputPath c) →
        (persistToLocaleFiles [⟨c, text⟩] key disk).disk.files f = disk.files f) ∧
      ∀ disk2 : Disk, disk2.file (outputPath c) = disk.file (outputPath c) →
        disk2.mode (disk2.resolve (outputPath c)) = disk.mode (disk.resolve (outputPath c)) →
        (persistToLocaleFiles [⟨c, text⟩] key disk2).completed =
            (persistToLocaleFiles [⟨c, text⟩] key disk).completed ∧
          (persistToLocaleFiles [⟨c, text⟩] key disk2).disk.file (outputPath c) =
            (persistToLocaleFiles [⟨c, text⟩] key disk).disk.file (outputPath c) := by
  refine ⟨by decide, by decide, ?_, ?_⟩
  · intro h
    simp [outputPath, norwegianConfusionHack, h]
  · intro text key disk
    refine ⟨?_, ?_⟩
    · intro f hf
      apply persist_files_other
      intro t ht
      rw [List.mem_singleton] at ht
      subst ht
      exact Ne.symm hf
    · intro disk2 h2 hm
      cases ho : holdsObject (disk.file (outputPath c)) with
      | false =>
        have ho2 : holdsObject (disk2.file (outputPath c)) = false := by rw [h2]; exact ho
        rw [persist_cons_not_object ⟨c, text⟩ [] key disk ho,
          persist_cons_not_object ⟨c, text⟩ [] key disk2 ho2]
        exact ⟨rfl, h2⟩
      | true =>
        obtain ⟨ms, hms⟩ := holdsObject_iff.mp ho
        rw [persist_cons_object ⟨c, text⟩ [] key disk hms,
          persist_cons_object ⟨c, text⟩ [] key disk2 (h2.trans hms)]
        refine ⟨rfl, ?_⟩
        simp only [persistToLocaleFiles, Outcome.disk]
        rw [WriteFile_file_self, WriteFile_file_self, hm, h2]

/-- Witness of C2 at the code "sv". -/
theorem locale_file_of_language_code_witness :
    "sv" ≠ "nb" ∧ norwegianConfusionHack "sv" = "sv" ∧ outputPath "sv" = "locale/sv.json" :=
  ⟨by decide, (locale_file_of_language_code "sv").2.2.1 (by decide)⟩

/-- C4, at the failing input: with no file at `locale/sv.json`, persisting a
Swedish translation does not return; the store into the nil map panics and the
file is still missing. -/
theorem persist_missing_file_panics :
    (persistToLocaleFiles [⟨"sv", "Hej"⟩] "greeting" emptyDisk).completed = false ∧
    fileMaps ((persistToLocaleFiles [⟨"sv", "Hej"⟩] "greeting" emptyDisk).disk.file
      "locale/sv.json") "greeting" = none ∧
    persistToLocaleFiles [⟨"sv", "Hej"⟩] "greeting" emptyDisk = .panicked emptyDisk :=
  ⟨by decide, by decide, rfl⟩

/-- C8 fails: a locale file that holds the object `{"count": 1, "title": "Hem"}`
is not a flat string-to-string object and the decoder reports an error on it,
yet the call returns normally and has replaced the file, the number rewritten
as the empty string. -/
theorem persist_malformed_member_completes :
    holdsFlatObject (numberDisk.file "locale/sv.json") = false ∧
    (Unmarshal (ReadFile numberDisk (outputPath "sv")).1 none).2 = true ∧
    (persistToLocaleFiles [⟨"sv", "Hej"⟩] "greeting" numberDisk).completed = true ∧
    (persistToLocaleFiles [⟨"sv", "Hej"⟩] "greeting" numberDisk).disk.file "locale/sv.json" =
      some (.json (.object
        [("count", .string ""), ("greeting", .string "Hej"), ("title", .string "Hem")])) :=
  ⟨by decide, by decide, by decide, rfl⟩

/-- C8 as amended: when the existing locale file of some translation of the
list is not JSON, or is JSON whose top-level value is not an object, the call
does not return (the store into the nil map panics) and that file is left as it
was; when every file named by the list holds a JSON object, whatever its member
values, and can be written, the decode error is discarded and the call returns,
each named file rewritten as a flat object that maps the key to the text of the
last entry for that file and every other name to the text the decoder read for
it, which is the text of its last member, the empty string standing for a value
that is not a string. -/
theorem persist_on_malformed_file (translations : List Translation) (key : String)
    (disk : Disk) :
    (∀ t c, t ∈ translations → disk.file (outputPath t.Lang) = some c →
      holdsObject (some c) = false →
        (persistToLocaleFiles translations key disk).completed = false ∧
        (persistToLocaleFiles translations key disk).disk.file (outputPath t.Lang) = some c) ∧
    ((∀ t ∈ translations, holdsObject (disk.file (outputPath t.Lang)) = true) →
      (∀ t ∈ translations, disk.writable (outputPath t.Lang) = true) →
      ∃ disk', persistToLocaleFiles translations key disk = .done disk' ∧
        ∀ pre t post, translations = pre ++ t :: post →
          (∀ u ∈ post, disk.resolve (outputPath u.Lang) ≠ disk.resolve (outputPath t.Lang)) →
          holdsFlatObject (disk'.file (outputPath t.Lang)) = true ∧
          fileMaps (disk'.file (outputPath t.Lang)) key = some t.Text ∧
          ∀ k, k ≠ key →
            fileMaps (disk'.file (outputPath t.Lang)) k =
              fileReads (disk.file (outputPath t.Lang)) k) := by
  refine ⟨?_, ?_⟩
  · intro t c ht hfile hbad
    have hb : holdsObject (disk.file (outputPath t.Lang)) = false := by rw [hfile]; exact hbad
    have h := persist_panics_of_not_object key ht hb
    exact ⟨h.1, h.2.trans hfile⟩
  · intro hobj hwrite
    obtain ⟨disk', hdone⟩ := persist_completes translations key disk hobj hwrite
    refine ⟨disk', hdone, ?_⟩
    intro pre t post hsplit hpost
    subst hsplit
    exact persist_entry_result hdone hpost hwrite

/-- Witness of C8 as amended: after an English entry that is written, the
Swedish file that is not JSON stops the call and stays as it is; and on the
Swedish file with a number in it, followed by nothing else, the call returns
and the name of the number reads as the empty string. -/
theorem persist_on_malformed_file_witness :
    brokenDisk.file (outputPath "sv") = some .notJSON ∧ holdsObject (some .notJSON) = false ∧
    ((persistToLocaleFiles [⟨"en", "Hello"⟩, ⟨"sv", "Hej"⟩] "greeting" brokenDisk).completed
        = false ∧
      (persistToLocaleFiles [⟨"en", "Hello"⟩, ⟨"sv", "Hej"⟩] "greeting" brokenDisk).disk.file
        (outputPath "sv") = some .notJSON) ∧
    (∀ t ∈ ([⟨"sv", "Hej"⟩] : List Translation),
      holdsObject (numberDisk.file (outputPath t.Lang)) = true) ∧
    (∀ t ∈ ([⟨"sv", "Hej"⟩] : List Translation),
      numberDisk.writable (outputPath t.Lang) = true) ∧
    ∃ disk', persistToLocaleFiles [⟨"sv", "Hej"⟩] "greeting" numberDisk = .done disk' ∧
      fileMaps (disk'.file (outputPath "sv")) "greeting" = some "Hej" ∧
      fileMaps (disk'.file (outputPath "sv")) "count" = some "" := by
  have hbroken := (persist_on_malformed_file [⟨"en", "Hello"⟩, ⟨"sv", "Hej"⟩] "greeting"
    brokenDisk).1 ⟨"sv", "Hej"⟩ .notJSON (by decide) rfl rfl
  obtain ⟨disk', hdone, hentry⟩ := (persist_on_malformed_file [⟨"sv", "Hej"⟩] "greeting"
    numberDisk).2 (by decide) (by decide)
  obtain ⟨_, hkey, hrest⟩ := hentry [] ⟨"sv", "Hej"⟩ [] rfl (by simp)
  refine ⟨rfl, rfl, hbroken, by decide, by decide, disk', hdone, hkey, ?_⟩
  rw [hrest "count" (by decide)]
  decide

/-! ## The translator client and the orchestrator -/

theorem translate_of_entries {client : HttpClient} {token text fromLang toLang : String}
    {body : Stream} (hcall : client (mkRequest token text fromLang toLang) = .ok body)
    {first : DeepLAPITranslation} {rest : List DeepLAPITranslation}
    (hlist : (Decode body).1.Translations = first :: rest) :
    translate client token text fromLang toLang = .ok { Lang := toLang, Text := first.Text } := by
  simp [translate, hcall, hlist]

theorem translate_of_no_entries {client : HttpClient} {token text fromLang toLang : String}
    {body : Stream} (hcall : client (mkRequest token text fromLang toLang) = .ok body)
    (hlist : (Decode body).1.Translations = []) :
    translate client token text fromLang toLang = .error "no translations found" := by
  simp [translate, hcall, hlist]

theorem translateAll_error_of_mem (client : HttpClient) (token input sourceLanguage : String)
    {targets : List String} {lang msg : String} (hlang : lang ∈ targets)
    (hfail : translate client token input sourceLanguage lang = .error msg)
    (acc : List Translation) :
    ∃ msg', translateAll client token input sourceLanguage targets acc = .error msg' := by
  induction targets generalizing acc with
  | nil => cases hlang
  | cons l rest ih =>
    cases ht : translate client token input sourceLanguage l with
    | error e => exact ⟨e, by simp [translateAll, ht]⟩
    | ok tr =>
      have hrest : lang ∈ rest := by
        rcases List.mem_cons.mp hlang with h | h
        · subst h
          rw [hfail] at ht
          cases ht
        · exact h
      obtain ⟨m, hm⟩ := ih hrest (acc ++ [tr])
      exact ⟨m, by simp [translateAll, ht, hm]⟩

theorem translateAll_ok (client : HttpClient) (token input sourceLanguage : String)
    (targets : List String) (text : String → String)
    (hok : ∀ lang ∈ targets,
      translate client token input sourceLanguage lang = .ok { Lang := lang, Text := text lang })
    (acc : List Translation) :
    translateAll client token input sourceLanguage targets acc =
      .ok (acc ++ targets.map fun lang => { Lang := lang, Text := text lang }) := by
  induction targets generalizing acc with
  | nil => simp [translateAll]
  | cons l rest ih =>
    have hl := hok l (List.mem_cons_self _ _)
    simp only [translateAll, hl]
    rw [ih (fun lang h => hok lang (List.mem_cons_of_mem _ h))]
    simp

theorem Decode_of_not_object (body : Stream) (h : beginsWithObject body = false) :
    (Decode body).1.Translations = [] := by
  cases body with
  | noValue => rfl
  | value v more =>
    cases v with
    | object ms => simp [beginsWithObject] at h
    | null => rfl
    | bool b => rfl
    | number n => rfl
    | string x => rfl
    | array xs => rfl

theorem command_without_language_flags (client : HttpClient)
    (pnpm : Disk → Disk × Option String) (token input translationKey : String)
    (syncTranslations : Bool) (disk : Disk) :
    command client pnpm token input none none translationKey syncTranslations disk =
      Action client pnpm token input "en" ["sv", "nb"] translationKey syncTranslations disk :=
  rfl

theorem Action_disk_without_sync (client : HttpClient) (pnpm : Disk → Disk × Option String)
    (token input sourceLanguage : String) (targetLanguages : List String)
    (translationKey : String) (disk : Disk) {translations : List Translation}
    (h : translateAll client token input sourceLanguage targetLanguages
      [{ Lang := sourceLanguage, Text := input }] = .ok translations) :
    (Action client pnpm token input sourceLanguage targetLanguages translationKey false
        disk).disk = (persistToLocaleFiles translations translationKey disk).disk ∧
    ((Action client pnpm token input sourceLanguage targetLanguages translationKey false
        disk).exit = .ok ↔
      (persistToLocaleFiles translations translationKey disk).completed = true) := by
  unfold Action
  rw [h]
  simp only
  cases persistToLocaleFiles translations translationKey disk with
  | panicked disk1 => exact ⟨rfl, by simp [Outcome.completed]⟩
  | done disk1 => exact ⟨rfl, by simp [Outcome.completed]⟩

theorem Action_persistCalls (client : HttpClient) (pnpm : Disk → Disk × Option String)
    (token input sourceLanguage : String) (targetLanguages : List String)
    (translationKey : String) (syncTranslations : Bool) (disk : Disk)
    {translations : List Translation}
    (h : translateAll client token input sourceLanguage targetLanguages
      [{ Lang := sourceLanguage, Text := input }] = .ok translations) :
    (Action client pnpm token input sourceLanguage targetLanguages translationKey
        syncTranslations disk).persistCalls = [(translations, translationKey)] := by
  unfold Action
  rw [h]
  simp only
  cases persistToLocaleFiles translations translationKey disk with
  | panicked disk1 => rfl
  | done disk1 =>
    cases syncTranslations with
    | false => rfl
    | true =>
      simp only [if_true]
      rcases hp : pnpm disk1 with ⟨disk2, _ | err⟩ <;> rfl

/-- C6: when the HTTP call succeeds and the decoded translation list is not
empty, `translate` returns the text of the first entry tagged with the
requested target language, whatever the entry's detected source language and
whatever entries follow. -/
theorem translate_returns_first_entry_for_requested_language (client : HttpClient)
    (token text fromLang toLang : String) (body : Stream)
    (first : DeepLAPITranslation) (rest : List DeepLAPITranslation)
    (hcall : client (mkRequest token text fromLang toLang) = .ok body)
    (hlist : (Decode body).1.Translations = first :: rest) :
    translate client token text fromLang toLang = .ok { Lang := toLang, Text := first.Text } :=
  translate_of_entries hcall hlist

/-- Witness of C6: two entries detected as French and German, asked for
Swedish from English. -/
theorem translate_returns_first_entry_for_requested_language_witness :
    (Decode twoEntryBody).1.Translations = [⟨"FR", "Hej"⟩, ⟨"DE", "Hallå"⟩] ∧
    translate (fun _ => .ok twoEntryBody) "key" "Hello" "en" "sv" =
      .ok { Lang := "sv", Text := "Hej" } :=
  ⟨by decide,
    translate_returns_first_entry_for_requested_language (fun _ => .ok twoEntryBody)
      "key" "Hello" "en" "sv" twoEntryBody ⟨"FR", "Hej"⟩ [⟨"DE", "Hallå"⟩] rfl (by decide)⟩

/-- C9 fails: on the body
`{"translations":[{"detected_source_language":5,"text":"Hej"}]}` the decoder
reports an error, and `translate` returns a translation all the same. -/
theorem translate_swallows_decoder_error :
    (Decode typeErrorBody).2 = true ∧
    translate (fun _ => .ok typeErrorBody) "key" "Hello" "en" "sv" =
      .ok { Lang := "sv", Text := "Hej" } :=
  ⟨by decide, rfl⟩

/-- C9 as amended: when the HTTP call succeeds, `translate` fails, with "no
translations found" and no translation, exactly when the translation list the
decoder leaves is empty; that is the case whenever the body does not begin with
a JSON value or begins with a JSON value other than an object, and then the
decoder reports an error unless that value is `null`; what follows the first
JSON value of the body is never read, so it changes nothing. -/
theorem translate_fails_iff_no_entry_decoded (client : HttpClient)
    (token text fromLang toLang : String) (body : Stream)
    (hcall : client (mkRequest token text fromLang toLang) = .ok body) :
    (translate client token text fromLang toLang = .error "no translations found" ↔
      (Decode body).1.Translations = []) ∧
    ((∀ tr, translate client token text fromLang toLang ≠ .ok tr) ↔
      (Decode body).1.Translations = []) ∧
    (beginsWithObject body = false →
      translate client token text fromLang toLang = .error "no translations found" ∧
      ((∀ more, body ≠ .value .null more) → (Decode body).2 = true)) ∧
    (∀ v more, body = .value v more → Decode body = Decode (.value v false)) := by
  refine ⟨?_, ?_, ?_, ?_⟩
  · constructor
    · intro h
      cases hl : (Decode body).1.Translations with
      | nil => rfl
      | cons first rest =>
        rw [translate_of_entries hcall hl] at h
        cases h
    · exact translate_of_no_entries hcall
  · constructor
    · intro h
      cases hl : (Decode body).1.Translations with
      | nil => rfl
      | cons first rest => exact absurd (translate_of_entries hcall hl) (h _)
    · intro hl tr h
      rw [translate_of_no_entries hcall hl] at h
      cases h
  · intro hbad
    refine ⟨translate_of_no_entries hcall (Decode_of_not_object body hbad), ?_⟩
    intro hnull
    cases body with
    | noValue => rfl
    | value v more =>
      cases v with
      | object ms => simp [beginsWithObject] at hbad
      | null => exact absurd rfl (hnull more)
      | bool b => rfl
      | number n => rfl
      | string x => rfl
      | array xs => rfl
  · intro v more hb
    subst hb
    cases v <;> rfl

/-- Witness of C9 as amended: a body that does not begin with a JSON value
fails, and a body that is a well-formed object followed by other bytes returns
the entry of that object. -/
theorem translate_fails_iff_no_entry_decoded_witness :
    (Decode .noValue).2 = true ∧
    translate (fun _ => .ok .noValue) "key" "Hello" "en" "sv" = .error "no translations found" ∧
    translate (fun _ => .ok trailingBytesBody) "key" "Hello" "en" "sv" =
      .ok { Lang := "sv", Text := "Hej" } :=
  ⟨rfl,
    ((translate_fails_iff_no_entry_decoded (fun _ => .ok .noValue) "key" "Hello" "en" "sv"
      .noValue rfl).2.2.1 rfl).1,
    rfl⟩

/-- C3: when for some target language of the list the service returns a body
that decodes to zero translation entries, `translate` fails for that language
with "no translations found", and the action dies in `log.Fatal` without a call
of `persistToLocaleFiles` and with the disk exactly as it was. -/
theorem empty_result_aborts_before_persisting (client : HttpClient)
    (pnpm : Disk → Disk × Option String) (token input sourceLanguage : String)
    (targetLanguages : List String) (translationKey : String) (syncTranslations : Bool)
    (disk : Disk) (lang : String) (body : Stream) (hlang : lang ∈ targetLanguages)
    (hcall : client (mkRequest token input sourceLanguage lang) = .ok body)
    (hempty : (Decode body).1.Translations = []) :
    translate client token input sourceLanguage lang = .error "no translations found" ∧
    ∃ msg, Action client pnpm token input sourceLanguage targetLanguages translationKey
        syncTranslations disk =
      { exit := .fatal msg, disk := disk, persistCalls := [], stdout := [] } := by
  have hfail := translate_of_no_entries hcall hempty
  refine ⟨hfail, ?_⟩
  obtain ⟨msg, hmsg⟩ := translateAll_error_of_mem client token input sourceLanguage hlang hfail
    [{ Lang := sourceLanguage, Text := input }]
  exact ⟨msg, by simp [Action, hmsg]⟩

/-- Witness of C3: Swedish is translated, Norwegian comes back empty, and
nothing is persisted. -/
theorem empty_result_aborts_before_persisting_witness :
    translate emptyListClient "key" "Hello" "en" "nb" = .error "no translations found" ∧
    ∃ msg, Action emptyListClient idlePnpm "key" "Hello" "en" ["sv", "nb"] "greeting" false
        sampleDisk =
      { exit := .fatal msg, disk := sampleDisk, persistCalls := [], stdout := [] } :=
  empty_result_aborts_before_persisting emptyListClient idlePnpm "key" "Hello" "en"
    ["sv", "nb"] "greeting" false sampleDisk "nb" noEntryBody
    (by decide) rfl (by decide)

/-- C7 fails as stated: with no target language, nothing to translate and the
source language "en", the run on a disk whose English locale file cannot be
opened for writing ends normally with every file as it was, and the run on a
disk without an English locale file panics with every file as it was; in both
the source entry was handed to `persistToLocaleFiles` and no locale file was
touched. -/
theorem action_without_targets_touches_no_file :
    (Action sampleClient idlePnpm "key" "Hello" "en" [] "greeting" false lockedDisk).exit
      = .ok ∧
    (Action sampleClient idlePnpm "key" "Hello" "en" [] "greeting" false lockedDisk).persistCalls
      = [([⟨"en", "Hello"⟩], "greeting")] ∧
    (Action sampleClient idlePnpm "key" "Hello" "en" [] "greeting" false lockedDisk).disk
      = lockedDisk ∧
    fileMaps ((Action sampleClient idlePnpm "key" "Hello" "en" [] "greeting" false
      lockedDisk).disk.file "locale/en.json") "greeting" = none ∧
    (Action sampleClient idlePnpm "key" "Hello" "en" [] "greeting" false emptyDisk).exit
      = .panic ∧
    (Action sampleClient idlePnpm "key" "Hello" "en" [] "greeting" false emptyDisk).disk
      = emptyDisk :=
  ⟨by decide, by decide, rfl, by decide, by decide, rfl⟩

/-- C7 as amended: when every call of `translate` succeeds, the action calls
`persistToLocaleFiles` exactly once, with the key and with the list of N+1
entries made of the untranslated source entry followed by one entry per target
language in the order given; with no target language the list is the source
entry alone and (without the external sync) no file but the source language's
locale file differs from before.  When every locale file named by the list
holds a JSON object and can be written, the run without sync ends normally and
each of those files maps the key to the text of the last entry that resolves
to it; with no target language that is the input text in the source
language's file. -/
theorem action_persists_source_then_each_target (client : HttpClient)
    (pnpm : Disk → Disk × Option String) (token input sourceLanguage : String)
    (targetLanguages : List String) (translationKey : String) (syncTranslations : Bool)
    (disk : Disk) (text : String → String)
    (hok : ∀ lang ∈ targetLanguages,
      translate client token input sourceLanguage lang = .ok { Lang := lang, Text := text lang }) :
    (Action client pnpm token input sourceLanguage targetLanguages translationKey
        syncTranslations disk).persistCalls =
      [({ Lang := sourceLanguage, Text := input } ::
          targetLanguages.map (fun lang => { Lang := lang, Text := text lang }),
        translationKey)] ∧
    (({ Lang := sourceLanguage, Text := input } : Translation) ::
        targetLanguages.map (fun lang => { Lang := lang, Text := text lang })).length =
      targetLanguages.length + 1 ∧
    (Action client pnpm token input sourceLanguage [] translationKey
        syncTranslations disk).persistCalls =
      [([{ Lang := sourceLanguage, Text := input }], translationKey)] ∧
    (∀ f, f ≠ disk.resolve (outputPath sourceLanguage) →
      (Action client pnpm token input sourceLanguage [] translationKey false disk).disk.files f =
        disk.files f) ∧
    ((∀ t ∈ ({ Lang := sourceLanguage, Text := input } : Translation) ::
          targetLanguages.map (fun lang => { Lang := lang, Text := text lang }),
        holdsObject (disk.file (outputPath t.Lang)) = true ∧
        disk.writable (outputPath t.Lang) = true) →
      (Action client pnpm token input sourceLanguage targetLanguages translationKey false
        disk).exit = .ok ∧
      ∀ pre t post,
        ({ Lang := sourceLanguage, Text := input } : Translation) ::
          targetLanguages.map (fun lang => { Lang := lang, Text := text lang }) =
          pre ++ t :: post →
        (∀ u ∈ post, disk.resolve (outputPath u.Lang) ≠ disk.resolve (outputPath t.Lang)) →
        fileMaps ((Action client pnpm token input sourceLanguage targetLanguages translationKey
          false disk).disk.file (outputPath t.Lang)) translationKey = some t.Text) ∧
    (holdsObject (disk.file (outputPath sourceLanguage)) = true →
      disk.writable (outputPath sourceLanguage) = true →
      (Action client pnpm token input sourceLanguage [] translationKey false disk).exit = .ok ∧
      fileMaps ((Action client pnpm token input sourceLanguage [] translationKey false disk).disk.file
        (outputPath sourceLanguage)) translationKey = some input) := by
  have hall : translateAll client token input sourceLanguage targetLanguages
      [{ Lang := sourceLanguage, Text := input }] =
      .ok ({ Lang := sourceLanguage, Text := input } ::
        targetLanguages.map (fun lang => { Lang := lang, Text := text lang })) := by
    have h := translateAll_ok client token input sourceLanguage targetLanguages text hok
      [{ Lang := sourceLanguage, Text := input }]
    simpa using h
  have hnone : translateAll client token input sourceLanguage []
      [{ Lang := sourceLanguage, Text := input }] =
      .ok [{ Lang := sourceLanguage, Text := input }] := rfl
  refine ⟨Action_persistCalls client pnpm token input sourceLanguage targetLanguages
      translationKey syncTranslations disk hall, by simp,
    Action_persistCalls client pnpm token input sourceLanguage [] translationKey
      syncTranslations disk hnone, ?_, ?_, ?_⟩
  · intro f hf
    rw [(Action_disk_without_sync client pnpm token input sourceLanguage [] translationKey
      disk hnone).1]
    apply persist_files_other
    intro t ht
    rw [List.mem_singleton] at ht
    subst ht
    exact Ne.symm hf
  · intro hfiles
    obtain ⟨hdisk, hexit⟩ := Action_disk_without_sync client pnpm token input sourceLanguage
      targetLanguages translationKey disk hall
    obtain ⟨disk', hdone⟩ := persist_completes _ translationKey disk
      (fun t ht => (hfiles t ht).1) (fun t ht => (hfiles t ht).2)
    refine ⟨hexit.mpr (by rw [hdone]; rfl), ?_⟩
    intro pre t post hsplit hpost
    rw [hdisk, hdone]
    rw [hsplit] at hdone
    exact (persist_entry_result hdone hpost
      (fun u hu => (hfiles u (hsplit ▸ hu)).2)).2.1
  · intro hobj hwrite
    obtain ⟨hdisk, hexit⟩ := Action_disk_without_sync client pnpm token input sourceLanguage
      [] translationKey disk hnone
    obtain ⟨disk', hdone⟩ := persist_completes [{ Lang := sourceLanguage, Text := input }]
      translationKey disk
      (by intro t ht; rw [List.mem_singleton] at ht; subst ht; exact hobj)
      (by intro t ht; rw [List.mem_singleton] at ht; subst ht; exact hwrite)
    refine ⟨hexit.mpr (by rw [hdone]; rfl), ?_⟩
    rw [hdisk, hdone]
    have hsplit : [({ Lang := sourceLanguage, Text := input } : Translation)] =
        [] ++ { Lang := sourceLanguage, Text := input } :: [] := rfl
    rw [hsplit] at hdone
    exact (persist_entry_result hdone (by simp)
      (by intro t ht; simp at ht; subst ht; exact hwrite)).2.1

/-- Witness of C7 as amended: "Hello" under the key "greeting" with neither
language flag given, so from English to Swedish and Norwegian Bokmål, on locale
files that hold JSON objects and can be written. -/
theorem action_persists_source_then_each_target_witness :
    (∀ lang ∈ ["sv", "nb"], translate sampleClient "key" "Hello" "en" lang =
      .ok { Lang := lang, Text := if lang = "sv" then "Hej" else "Hei" }) ∧
    (∀ t ∈ ([⟨"en", "Hello"⟩, ⟨"sv", "Hej"⟩, ⟨"nb", "Hei"⟩] : List Translation),
      holdsObject (sampleDisk.file (outputPath t.Lang)) = true ∧
      sampleDisk.writable (outputPath t.Lang) = true) ∧
    (Action sampleClient idlePnpm "key" "Hello" "en" ["sv", "nb"] "greeting" false
        sampleDisk).persistCalls =
      [([⟨"en", "Hello"⟩, ⟨"sv", "Hej"⟩, ⟨"nb", "Hei"⟩], "greeting")] ∧
    (command sampleClient idlePnpm "key" "Hello" none none "greeting" false
        sampleDisk).persistCalls =
      [([⟨"en", "Hello"⟩, ⟨"sv", "Hej"⟩, ⟨"nb", "Hei"⟩], "greeting")] ∧
    (Action sampleClient idlePnpm "key" "Hello" "en" ["sv", "nb"] "greeting" false
        sampleDisk).exit = .ok ∧
    fileMaps ((Action sampleClient idlePnpm "key" "Hello" "en" ["sv", "nb"] "greeting" false
        sampleDisk).disk.file "locale/en.json") "greeting" = some "Hello" ∧
    fileMaps ((Action sampleClient idlePnpm "key" "Hello" "en" ["sv", "nb"] "greeting" false
        sampleDisk).disk.file "locale/sv.json") "greeting" = some "Hej" ∧
    fileMaps ((Action sampleClient idlePnpm "key" "Hello" "en" ["sv", "nb"] "greeting" false
        sampleDisk).disk.file "locale/no.json") "greeting" = some "Hei" := by
  have hok : ∀ lang ∈ ["sv", "nb"], translate sampleClient "key" "Hello" "en" lang =
      .ok { Lang := lang, Text := if lang = "sv" then "Hej" else "Hei" } := by
    intro lang h
    simp only [List.mem_cons, List.mem_singleton, List.not_mem_nil, or_false] at h
    rcases h with rfl | rfl <;> rfl
  have hfiles : ∀ t ∈ ([⟨"en", "Hello"⟩, ⟨"sv", "Hej"⟩, ⟨"nb", "Hei"⟩] : List Translation),
      holdsObject (sampleDisk.file (outputPath t.Lang)) = true ∧
      sampleDisk.writable (outputPath t.Lang) = true := by decide
  have h := action_persists_source_then_each_target sampleClient idlePnpm "key" "Hello" "en"
    ["sv", "nb"] "greeting" false sampleDisk (fun lang => if lang = "sv" then "Hej" else "Hei")
    hok
  obtain ⟨hexit, hlast⟩ := h.2.2.2.2.1 hfiles
  exact ⟨hok, hfiles, h.1, h.1, hexit,
    hlast [] ⟨"en", "Hello"⟩ [⟨"sv", "Hej"⟩, ⟨"nb", "Hei"⟩] rfl (by decide),
    hlast [⟨"en", "Hello"⟩] ⟨"sv", "Hej"⟩ [⟨"nb", "Hei"⟩] rfl (by decide),
    hlast [⟨"en", "Hello"⟩, ⟨"sv", "Hej"⟩] ⟨"nb", "Hei"⟩ [] rfl (by decide)⟩

end Translazy
